import Mathlib

/-!
Shallow embedding of the Wiener-attack repository (kpochodyla/wienercpp).

Source files embedded:
* `src/wiener_attack.cpp` — `computeContinuedFraction`, `buildConvergents`
  (via `convP`/`convQ`), `isPerfectSquare`, `tryRecoverFromConvergent`,
  `wienerAttack`.
* `src/wiener.cpp` — `oblicz_wartosc_ulamka_lancuchowego`, and `attack`
  (the inline convergent construction is `attackConvP`/`attackConvQ`, the
  main loop with its stale `p1` variable is `attackGo`).

NTL's `ZZ` is embedded as `Int`.  All divisions the programs execute are
either exact (performed after an explicit divisibility test) or have
non-negative operands, domains on which Lean's Euclidean `/`/`%` on `Int`
agree with NTL's floor division.  NTL `SqrRoot` (floor square root on
non-negative input) is `Int.sqrt`; NTL `divide(a, b)` (does `b` divide
`a`?) is `a % b = 0`.
-/

/-- Embeds `computeContinuedFraction` from `src/wiener_attack.cpp` (lines 40–53):
Euclidean continued-fraction expansion of `num / den`. -/
def computeContinuedFraction (num den : Int) : List Int :=
  if hden : den = 0 then []
  else
    let q := num / den
    let rem := num - q * den
    q :: computeContinuedFraction den rem
termination_by den.natAbs
decreasing_by
  have h1 : num - num / den * den = num % den := by rw [Int.emod_def]; ring
  have h2 : 0 ≤ num % den := Int.emod_nonneg num hden
  have h3 : num % den < (den.natAbs : Int) := by
    rcases lt_or_gt_of_ne hden with hlt | hgt
    · have h4 : num % den = num % (-den) := (Int.emod_neg num den).symm
      have h5 : num % (-den) < -den := Int.emod_lt_of_pos num (by omega)
      omega
    · have h4 : num % den < den := Int.emod_lt_of_pos num hgt
      omega
  simp only [h1]
  omega

/-- Numerator convergents `P[i]` pushed by `buildConvergents` in
`src/wiener_attack.cpp` (lines 68–86). -/
def convP (cf : List Int) : Nat → Int
  | 0 => cf.getD 0 0
  | 1 => cf.getD 1 0 * cf.getD 0 0 + 1
  | n + 2 => cf.getD (n + 2) 0 * convP cf (n + 1) + convP cf n

/-- Denominator convergents `Q[i]` pushed by `buildConvergents` in
`src/wiener_attack.cpp` (lines 68–86). -/
def convQ (cf : List Int) : Nat → Int
  | 0 => 1
  | 1 => cf.getD 1 0
  | n + 2 => cf.getD (n + 2) 0 * convQ cf (n + 1) + convQ cf n

/-- Embeds `buildConvergents` from `src/wiener_attack.cpp`: the two output vectors
`P` and `Q`, one entry per continued-fraction term. -/
def buildConvergents (cf : List Int) : List Int × List Int :=
  ((List.range cf.length).map (convP cf), (List.range cf.length).map (convQ cf))

/-- Embeds `isPerfectSquare` from `src/wiener_attack.cpp` (lines 95–99):
`n < 0` is rejected, otherwise `root = SqrRoot n` and the test is
`root * root == n`. -/
def isPerfectSquare (n : Int) : Bool :=
  if n < 0 then false else Int.sqrt n * Int.sqrt n == n

/-- One iteration of the root loop in `tryRecoverFromConvergent`
(`src/wiener_attack.cpp` lines 139–146): test divisibility by `2a`,
positivity of the quotient, and divisibility of `N` by the quotient. -/
def tryRootCandidate (twoA N d rootCand : Int) : Option (Int × Int) :=
  if rootCand % twoA ≠ 0 then none
  else
    let root := rootCand / twoA
    if root ≤ 0 then none
    else if N % root ≠ 0 then none
    else some (root, d)

/-- Embeds `tryRecoverFromConvergent` from `src/wiener_attack.cpp` (lines 116–149). -/
def tryRecoverFromConvergent (k d e N : Int) : Option (Int × Int) :=
  if k = 0 then none
  else
    let numer := e * d - 1
    if numer % k ≠ 0 then none
    else
      let phiN := numer / k
      let a : Int := 1
      let b := -((N - phiN) + 1)
      let c := N
      let delta := b * b - 4 * a * c
      if delta < 0 then none
      else if ¬ isPerfectSquare delta then none
      else
        let sqrtDelta := Int.sqrt delta
        let twoA := 2 * a
        let r1 := -b + sqrtDelta
        let r2 := -b - sqrtDelta
        match tryRootCandidate twoA N d r1 with
        | some res => some res
        | none => tryRootCandidate twoA N d r2

/-- The scanning loop of `wienerAttack` (`src/wiener_attack.cpp` lines
165–170): try each convergent pair `(P[i], Q[i])` in order, return the
first success. -/
def scanConvergents (e N : Int) : List (Int × Int) → Option (Int × Int)
  | [] => none
  | (k, d) :: rest =>
    match tryRecoverFromConvergent k d e N with
    | some res => some res
    | none => scanConvergents e N rest

/-- Embeds `wienerAttack` from `src/wiener_attack.cpp` (lines 158–172). -/
def wienerAttack (e N : Int) : Option (Int × Int) :=
  let cf := computeContinuedFraction e N
  if cf.isEmpty then none
  else
    let pq := buildConvergents cf
    scanConvergents e N (pq.1.zip pq.2)

/-- Embeds `oblicz_wartosc_ulamka_lancuchowego` from `src/wiener.cpp` (lines
14–38): the same Euclidean loop, with the remainder written as
`tmp - (mianownik * iloraz)`. -/
def oblicz_wartosc_ulamka_lancuchowego (licznik mianownik : Int) : List Int :=
  if hmian : mianownik = 0 then []
  else
    let iloraz := licznik / mianownik
    iloraz :: oblicz_wartosc_ulamka_lancuchowego mianownik (licznik - mianownik * iloraz)
termination_by mianownik.natAbs
decreasing_by
  have h1 : licznik - mianownik * (licznik / mianownik) = licznik % mianownik := by
    rw [Int.emod_def]
  have h2 : 0 ≤ licznik % mianownik := Int.emod_nonneg licznik hmian
  have h3 : licznik % mianownik < (mianownik.natAbs : Int) := by
    rcases lt_or_gt_of_ne hmian with hlt | hgt
    · have h4 : licznik % mianownik = licznik % (-mianownik) := (Int.emod_neg licznik mianownik).symm
      have h5 : licznik % (-mianownik) < -mianownik := Int.emod_lt_of_pos licznik (by omega)
      omega
    · have h4 : licznik % mianownik < mianownik := Int.emod_lt_of_pos licznik hgt
      omega
  simp only [h1]
  omega

/-- The values pushed into `P` by the loop of `attack` in `src/wiener.cpp`
(lines 50–67). -/
def attackConvP (cf : List Int) : Nat → Int
  | 0 => cf.getD 0 0
  | 1 => cf.getD 1 0 * cf.getD 0 0 + 1
  | n + 2 => cf.getD (n + 2) 0 * attackConvP cf (n + 1) + attackConvP cf n

/-- The values pushed into `Q` by the loop of `attack` in `src/wiener.cpp`
(lines 50–67). -/
def attackConvQ (cf : List Int) : Nat → Int
  | 0 => 1
  | 1 => cf.getD 1 0
  | n + 2 => cf.getD (n + 2) 0 * attackConvQ cf (n + 1) + attackConvQ cf n

/-- The main loop of `attack` in `src/wiener.cpp` (lines 50–151), iteration
counter `i`, threading the mutable variable `p1` (NTL `ZZ`, initialised to
`0`), which the `delta == 0` branch reads *stale* (lines 111–124: it
divides the leftover `p1` instead of `-b`).  On success the function
returns `[q, d]`; after exhausting all convergents it returns the sentinel
`[0]` (line 150–151). -/
def attackGo (e N : Int) (cf : List Int) (i : Nat) (p1 : Int) : List Int :=
  if i < cf.length then
    let k := attackConvP cf i
    let d := attackConvQ cf i
    if k = 0 then attackGo e N cf (i + 1) p1
    else
      let phiN0 := e * d - 1
      if phiN0 % k ≠ 0 then attackGo e N cf (i + 1) p1
      else
        let phiN := phiN0 / k
        let a : Int := 1
        let b := -((N - phiN) + 1)
        let c := N
        let delta := b ^ 2 - 4 * (a * c)
        if 0 < delta then
          let s := Int.sqrt delta
          let p1a := -b + s
          let p2 := -b - s
          if p1a % (2 * a) = 0 then
            let p1b := p1a / (2 * a)
            if 0 < p1b ∧ N % p1b = 0 then [N / p1b, d]
            else attackGo e N cf (i + 1) p1b
          else if p2 % (2 * a) = 0 then
            let p2b := p2 / (2 * a)
            if 0 < p2b ∧ N % p2b = 0 then [N / p2b, d]
            else attackGo e N cf (i + 1) p1a
          else attackGo e N cf (i + 1) p1a
        else if delta = 0 then
          if (-b) % (2 * a) = 0 then
            let p1b := p1 / (2 * a)
            if 0 < p1b ∧ N % p1b = 0 then [N / p1b, d]
            else attackGo e N cf (i + 1) p1b
          else attackGo e N cf (i + 1) p1
        else attackGo e N cf (i + 1) p1
  else [0]
termination_by cf.length - i

/-- Embeds `attack` from `src/wiener.cpp` (lines 41–152). -/
def attack (e N : Int) : List Int :=
  attackGo e N (oblicz_wartosc_ulamka_lancuchowego e N) 0 0

/-- Specification-side comparator for the continued-fraction expander
(spec §4.1): "While den ≠ 0: compute integer quotient q = num div den and
remainder r = num − q·den; append q; set (num, den) ← (den, r)", on
natural numbers.  Termination is the spec's own argument: the denominator
strictly decreases and is bounded below by 0. -/
def euclidQuotientSeq (num den : Nat) : List Nat :=
  if h : den = 0 then []
  else (num / den) :: euclidQuotientSeq den (num % den)
termination_by den
decreasing_by
  exact Nat.mod_lt num (Nat.pos_of_ne_zero h)

/-! Helper lemmas about the embedded definitions. -/

lemma getD_of_lt {α : Type} (l : List α) (i : Nat) (h : i < l.length) (d : α) :
    l.getD i d = l[i] := by
  simp [List.getD_eq_getElem?_getD, List.getElem?_eq_getElem h]

lemma emod_natAbs_lt (num den : Int) (h : den ≠ 0) : (num % den).natAbs < den.natAbs := by
  have h2 : 0 ≤ num % den := Int.emod_nonneg num h
  have h3 : num % den < (den.natAbs : Int) := by
    rcases lt_or_gt_of_ne h with hlt | hgt
    · have h4 : num % den = num % (-den) := (Int.emod_neg num den).symm
      have h5 : num % (-den) < -den := Int.emod_lt_of_pos num (by omega)
      omega
    · have h4 : num % den < den := Int.emod_lt_of_pos num hgt
      omega
  omega

lemma cf_rem (num den : Int) : num - num / den * den = num % den := by
  rw [Int.emod_def]; ring

lemma cf_unfold (num den : Int) (h : den ≠ 0) :
    computeContinuedFraction num den =
      num / den :: computeContinuedFraction den (num % den) := by
  rw [computeContinuedFraction]
  simp only [h, dite_false, cf_rem]

lemma cf_zero (num : Int) : computeContinuedFraction num 0 = [] := by
  rw [computeContinuedFraction]; simp

lemma cf_terms_nonneg : ∀ (fuel : Nat) (num den : Int), den.natAbs ≤ fuel →
    0 ≤ num → 0 ≤ den → ∀ t ∈ computeContinuedFraction num den, 0 ≤ t := by
  intro fuel
  induction fuel with
  | zero =>
    intro num den hf _ _ t ht
    have hden : den = 0 := by omega
    rw [hden, cf_zero] at ht
    simp at ht
  | succ n ih =>
    intro num den hf hnum hden t ht
    by_cases h : den = 0
    · rw [h, cf_zero] at ht; simp at ht
    · rw [cf_unfold num den h] at ht
      rcases List.mem_cons.mp ht with h1 | h1
      · subst h1; exact Int.ediv_nonneg hnum hden
      · exact ih den (num % den)
          (by have := emod_natAbs_lt num den h; omega)
          hden (Int.emod_nonneg num h) t h1

lemma cf_terms_one_le : ∀ (fuel : Nat) (num den : Int), den.natAbs ≤ fuel →
    0 ≤ den → den < num → ∀ t ∈ computeContinuedFraction num den, 1 ≤ t := by
  intro fuel
  induction fuel with
  | zero =>
    intro num den hf _ _ t ht
    have hden : den = 0 := by omega
    rw [hden, cf_zero] at ht
    simp at ht
  | succ n ih =>
    intro num den hf hden hlt t ht
    by_cases h : den = 0
    · rw [h, cf_zero] at ht; simp at ht
    · rw [cf_unfold num den h] at ht
      have hdpos : 0 < den := lt_of_le_of_ne hden (Ne.symm h)
      rcases List.mem_cons.mp ht with h1 | h1
      · subst h1
        rw [Int.le_ediv_iff_mul_le hdpos]
        omega
      · exact ih den (num % den)
          (by have := emod_natAbs_lt num den h; omega)
          (Int.emod_nonneg num h) (Int.emod_lt_of_pos num hdpos) t h1

lemma cf_getD_head (e N : Int) (hN : N ≠ 0) :
    (computeContinuedFraction e N).getD 0 0 = e / N := by
  rw [cf_unfold e N hN, List.getD_cons_zero]

lemma cf_getD_nonneg (e N : Int) (he : 0 ≤ e) (hN : 0 ≤ N) :
    ∀ j, 0 ≤ (computeContinuedFraction e N).getD j 0 := by
  intro j
  by_cases h : j < (computeContinuedFraction e N).length
  · rw [getD_of_lt _ _ h]
    exact cf_terms_nonneg N.natAbs e N le_rfl he hN _ (List.getElem_mem h)
  · rw [List.getD_eq_default _ _ (by omega)]

lemma cf_getD_tail_one_le (e N : Int) (he : 0 < e) (hN : 0 < N) :
    ∀ j, 1 ≤ j → j < (computeContinuedFraction e N).length →
      1 ≤ (computeContinuedFraction e N).getD j 0 := by
  intro j hj hlen
  have hN0 : N ≠ 0 := by omega
  rw [cf_unfold e N hN0] at hlen ⊢
  obtain ⟨j', rfl⟩ : ∃ j', j = j' + 1 := ⟨j - 1, by omega⟩
  rw [List.getD_cons_succ]
  simp only [List.length_cons] at hlen
  have hlt : j' < (computeContinuedFraction N (e % N)).length := by omega
  rw [getD_of_lt _ _ hlt]
  exact cf_terms_one_le (e % N).natAbs N (e % N) le_rfl
    (Int.emod_nonneg e hN0) (Int.emod_lt_of_pos e hN) _ (List.getElem_mem hlt)

lemma convQ_one_le (cf : List Int)
    (h1 : ∀ j, 1 ≤ j → j < cf.length → 1 ≤ cf.getD j 0) :
    ∀ i, i < cf.length → 1 ≤ convQ cf i := by
  intro i
  induction i using Nat.strong_induction_on with
  | _ i ih =>
    match i with
    | 0 => intro _; simp [convQ]
    | 1 => intro h; simpa [convQ] using h1 1 le_rfl h
    | n + 2 =>
      intro h
      have hQ1 := ih (n + 1) (by omega) (by omega)
      have hQ0 := ih n (by omega) (by omega)
      have ha : 1 ≤ cf.getD (n + 2) 0 := h1 (n + 2) (by omega) h
      simp only [convQ]
      nlinarith

lemma convP_nonneg (cf : List Int) (h0 : 0 ≤ cf.getD 0 0)
    (h1 : ∀ j, 1 ≤ j → j < cf.length → 1 ≤ cf.getD j 0) :
    ∀ i, i < cf.length → 0 ≤ convP cf i := by
  intro i
  induction i using Nat.strong_induction_on with
  | _ i ih =>
    match i with
    | 0 => intro _; simpa [convP] using h0
    | 1 =>
      intro h
      have ha : 1 ≤ cf.getD 1 0 := h1 1 le_rfl h
      simp only [convP]
      nlinarith
    | n + 2 =>
      intro h
      have hP1 := ih (n + 1) (by omega) (by omega)
      have hP0 := ih n (by omega) (by omega)
      have ha : 1 ≤ cf.getD (n + 2) 0 := h1 (n + 2) (by omega) h
      simp only [convP]
      nlinarith

lemma convP_le_convQ (cf : List Int) (h0 : 0 ≤ cf.getD 0 0)
    (h1 : ∀ j, 1 ≤ j → j < cf.length → 1 ≤ cf.getD j 0) :
    ∀ i, i < cf.length → convP cf i ≤ (cf.getD 0 0 + 1) * convQ cf i := by
  intro i
  induction i using Nat.strong_induction_on with
  | _ i ih =>
    match i with
    | 0 => intro _; simp [convP, convQ]
    | 1 =>
      intro h
      have ha : 1 ≤ cf.getD 1 0 := h1 1 le_rfl h
      simp only [convP, convQ]
      nlinarith
    | n + 2 =>
      intro h
      have hP1 := ih (n + 1) (by omega) (by omega)
      have hP0 := ih n (by omega) (by omega)
      have ha : 1 ≤ cf.getD (n + 2) 0 := h1 (n + 2) (by omega) h
      have hQ1 : 1 ≤ convQ cf (n + 1) := convQ_one_le cf h1 (n + 1) (by omega)
      have hQ0 : 1 ≤ convQ cf n := convQ_one_le cf h1 n (by omega)
      simp only [convP, convQ]
      nlinarith

lemma zip_conv_getD (cf : List Int) (i : Nat) (h : i < cf.length) :
    (((buildConvergents cf).1.zip (buildConvergents cf).2).getD i (0, 0)) =
      (convP cf i, convQ cf i) := by
  simp only [buildConvergents]
  have h2 : i < (((List.range cf.length).map (convP cf)).zip
      ((List.range cf.length).map (convQ cf))).length := by
    simp [h]
  rw [List.getD_eq_getElem?_getD, List.getElem?_eq_getElem h2]
  simp [List.getElem_zip, List.getElem_map, List.getElem_range]

lemma zip_conv_length (cf : List Int) :
    ((buildConvergents cf).1.zip (buildConvergents cf).2).length = cf.length := by
  simp [buildConvergents]

lemma scanConvergents_eq_some_iff (e N : Int) (r : Int × Int) :
    ∀ (l : List (Int × Int)),
      scanConvergents e N l = some r ↔
      ∃ i, i < l.length ∧
        tryRecoverFromConvergent (l.getD i (0, 0)).1 (l.getD i (0, 0)).2 e N = some r ∧
        ∀ j, j < i →
          tryRecoverFromConvergent (l.getD j (0, 0)).1 (l.getD j (0, 0)).2 e N = none := by
  intro l
  induction l with
  | nil => simp [scanConvergents]
  | cons hd tl ih =>
    obtain ⟨k, d⟩ := hd
    constructor
    · intro h
      rw [scanConvergents] at h
      rcases hres : tryRecoverFromConvergent k d e N with _ | res
      · rw [hres] at h
        obtain ⟨i, hi, hsome, hnone⟩ := ih.mp h
        refine ⟨i + 1, by simpa using Nat.succ_lt_succ hi, by simpa using hsome, ?_⟩
        intro j hj
        match j with
        | 0 => simpa using hres
        | j' + 1 => simpa using hnone j' (by omega)
      · rw [hres] at h
        simp only [Option.some.injEq] at h
        subst h
        exact ⟨0, by simp, by simpa using hres, by omega⟩
    · rintro ⟨i, hi, hsome, hnone⟩
      rw [scanConvergents]
      match i with
      | 0 =>
        simp only [List.getD_cons_zero] at hsome
        rw [hsome]
      | i' + 1 =>
        have h0 := hnone 0 (by omega)
        simp only [List.getD_cons_zero] at h0
        rw [h0]
        refine ih.mpr ⟨i', by simpa using hi, by simpa using hsome, ?_⟩
        intro j hj
        have := hnone (j + 1) (by omega)
        simpa using this

lemma wienerAttack_eq_some_iff (e N : Int) (r : Int × Int) :
    wienerAttack e N = some r ↔
    ∃ i, i < (computeContinuedFraction e N).length ∧
      tryRecoverFromConvergent (convP (computeContinuedFraction e N) i)
        (convQ (computeContinuedFraction e N) i) e N = some r ∧
      ∀ j, j < i →
        tryRecoverFromConvergent (convP (computeContinuedFraction e N) j)
          (convQ (computeContinuedFraction e N) j) e N = none := by
  set cf := computeContinuedFraction e N with hcf
  unfold wienerAttack
  rw [← hcf]
  by_cases hemp : cf.isEmpty = true
  · have hcfnil : cf = [] := List.isEmpty_iff.mp hemp
    have hlen : cf.length = 0 := by rw [hcfnil]; rfl
    rw [if_pos hemp]
    constructor
    · intro h; exact absurd h (by simp)
    · rintro ⟨i, hi, _⟩; omega
  · rw [if_neg hemp]
    rw [scanConvergents_eq_some_iff]
    constructor
    · rintro ⟨i, hi, hsome, hnone⟩
      rw [zip_conv_length] at hi
      rw [zip_conv_getD cf i hi] at hsome
      refine ⟨i, hi, hsome, ?_⟩
      intro j hj
      have hjlen : j < cf.length := by omega
      have := hnone j hj
      rwa [zip_conv_getD cf j hjlen] at this
    · rintro ⟨i, hi, hsome, hnone⟩
      refine ⟨i, by rwa [zip_conv_length], ?_, ?_⟩
      · rwa [zip_conv_getD cf i hi]
      · intro j hj
        have hjlen : j < cf.length := by omega
        rw [zip_conv_getD cf j hjlen]
        exact hnone j hj

lemma tryRootCandidate_eq (twoA N d rc : Int) :
    tryRootCandidate twoA N d rc =
      if rc % twoA = 0 ∧ 0 < rc / twoA ∧ N % (rc / twoA) = 0
      then some (rc / twoA, d) else none := by
  unfold tryRootCandidate
  split_ifs <;> simp_all

lemma isPerfectSquare_true_of (delta : Int) (hnn : 0 ≤ delta)
    (hsq : Int.sqrt delta * Int.sqrt delta = delta) : isPerfectSquare delta = true := by
  unfold isPerfectSquare
  rw [if_neg (by omega)]
  exact beq_iff_eq.mpr hsq

lemma tryRecover_eq_of_sq {k d e N phiN b delta r : Int}
    (hk : k ≠ 0) (hdvd : (e * d - 1) % k = 0)
    (hphi : phiN = (e * d - 1) / k)
    (hb : b = -((N - phiN) + 1))
    (hdelta : delta = b * b - 4 * 1 * N)
    (hnn : 0 ≤ delta)
    (hr : r = Int.sqrt delta)
    (hsq : r * r = delta) :
    tryRecoverFromConvergent k d e N =
      if (-b + r) % 2 = 0 ∧ 0 < (-b + r) / 2 ∧ N % ((-b + r) / 2) = 0
      then some ((-b + r) / 2, d)
      else if (-b - r) % 2 = 0 ∧ 0 < (-b - r) / 2 ∧ N % ((-b - r) / 2) = 0
      then some ((-b - r) / 2, d)
      else none := by
  subst hphi hb hdelta hr
  simp only [mul_one] at hnn hsq
  have hps : isPerfectSquare
      (-(N - (e * d - 1) / k + 1) * -(N - (e * d - 1) / k + 1) - 4 * N) = true :=
    isPerfectSquare_true_of _ hnn hsq
  simp only [tryRecoverFromConvergent, mul_one, tryRootCandidate_eq]
  rw [if_neg hk, if_neg (show ¬((e * d - 1) % k ≠ 0) by omega),
    if_neg (show ¬(-(N - (e * d - 1) / k + 1) * -(N - (e * d - 1) / k + 1) - 4 * N < 0) by omega),
    if_neg (not_not_intro hps)]
  split_ifs with h1 h2 <;> rfl


/-! Concrete evaluations. -/

lemma nat_sqrt_19600 : Nat.sqrt 19600 = 140 := ((Nat.eq_sqrt).mpr (by norm_num)).symm

lemma sqrt19600 : Int.sqrt 19600 = 140 := by
  rw [Int.sqrt]
  rw [show Int.toNat 19600 = 19600 from rfl, nat_sqrt_19600]
  rfl

lemma cf_one_one : computeContinuedFraction 1 1 = [1] := by
  rw [computeContinuedFraction]
  norm_num
  rw [computeContinuedFraction]
  norm_num

lemma obl_one_one : oblicz_wartosc_ulamka_lancuchowego 1 1 = [1] := by
  rw [oblicz_wartosc_ulamka_lancuchowego]
  norm_num
  rw [oblicz_wartosc_ulamka_lancuchowego]
  norm_num

lemma tryRecover_one_one : tryRecoverFromConvergent 1 1 1 1 = some (1, 1) := by
  rw [tryRecoverFromConvergent]
  norm_num [isPerfectSquare, tryRootCandidate, Int.sqrt]

lemma wienerAttack_one_one : wienerAttack 1 1 = some (1, 1) := by
  simp only [wienerAttack]
  rw [cf_one_one]
  norm_num [buildConvergents, convP, convQ, List.range_succ, -Prod.mk_one_one]
  rw [scanConvergents]
  rw [tryRecover_one_one]

lemma attack_one_one : attack 1 1 = [0] := by
  rw [attack, obl_one_one]
  rw [attackGo]
  norm_num [attackConvP, attackConvQ]
  rw [attackGo]
  norm_num

lemma obl_two_five : oblicz_wartosc_ulamka_lancuchowego 2 5 = [0, 2, 2] := by
  rw [oblicz_wartosc_ulamka_lancuchowego]
  norm_num
  rw [oblicz_wartosc_ulamka_lancuchowego]
  norm_num
  rw [oblicz_wartosc_ulamka_lancuchowego]
  norm_num
  rw [oblicz_wartosc_ulamka_lancuchowego]
  norm_num

lemma attack_two_five : attack 2 5 = [0] := by
  rw [attack, obl_two_five]
  rw [attackGo]
  norm_num [attackConvP, attackConvQ]
  rw [attackGo]
  norm_num [attackConvP, attackConvQ]
  rw [attackGo]
  norm_num [attackConvP, attackConvQ]
  rw [attackGo]
  norm_num

lemma cf17993 : computeContinuedFraction 17993 90581 = [0, 5, 29, 4, 1, 3, 2, 4, 3] := by
  rw [computeContinuedFraction]; norm_num
  rw [computeContinuedFraction]; norm_num
  rw [computeContinuedFraction]; norm_num
  rw [computeContinuedFraction]; norm_num
  rw [computeContinuedFraction]; norm_num
  rw [computeContinuedFraction]; norm_num
  rw [computeContinuedFraction]; norm_num
  rw [computeContinuedFraction]; norm_num
  rw [computeContinuedFraction]; norm_num
  rw [computeContinuedFraction]; norm_num

lemma obl17993 : oblicz_wartosc_ulamka_lancuchowego 17993 90581 = [0, 5, 29, 4, 1, 3, 2, 4, 3] := by
  rw [oblicz_wartosc_ulamka_lancuchowego]; norm_num
  rw [oblicz_wartosc_ulamka_lancuchowego]; norm_num
  rw [oblicz_wartosc_ulamka_lancuchowego]; norm_num
  rw [oblicz_wartosc_ulamka_lancuchowego]; norm_num
  rw [oblicz_wartosc_ulamka_lancuchowego]; norm_num
  rw [oblicz_wartosc_ulamka_lancuchowego]; norm_num
  rw [oblicz_wartosc_ulamka_lancuchowego]; norm_num
  rw [oblicz_wartosc_ulamka_lancuchowego]; norm_num
  rw [oblicz_wartosc_ulamka_lancuchowego]; norm_num
  rw [oblicz_wartosc_ulamka_lancuchowego]; norm_num

lemma tryRecover17993 : tryRecoverFromConvergent 1 5 17993 90581 = some (379, 5) := by
  have h := @tryRecover_eq_of_sq 1 5 17993 90581 89964 (-618) 19600 140
      (by norm_num) (by norm_num) (by norm_num) (by norm_num) (by norm_num)
      (by norm_num) sqrt19600.symm (by norm_num)
  rw [h]
  norm_num

lemma tryRecover_k_zero (d e N : Int) : tryRecoverFromConvergent 0 d e N = none := by
  rw [tryRecoverFromConvergent]
  norm_num

lemma wienerAttack17993 : wienerAttack 17993 90581 = some (379, 5) := by
  refine (wienerAttack_eq_some_iff 17993 90581 (379, 5)).mpr ⟨1, ?_, ?_, ?_⟩
  · rw [cf17993]; norm_num
  · have h1 : convP (computeContinuedFraction 17993 90581) 1 = 1 := by
      rw [cf17993]; norm_num [convP]
    have h2 : convQ (computeContinuedFraction 17993 90581) 1 = 5 := by
      rw [cf17993]; norm_num [convQ]
    rw [h1, h2]; exact tryRecover17993
  · intro j hj
    have hj0 : j = 0 := by omega
    subst hj0
    have h1 : convP (computeContinuedFraction 17993 90581) 0 = 0 := by
      rw [cf17993]; norm_num [convP]
    rw [h1]
    exact tryRecover_k_zero _ _ _

lemma attack17993 : attack 17993 90581 = [239, 5] := by
  rw [attack, obl17993]
  rw [attackGo]
  norm_num [attackConvP, attackConvQ]
  rw [attackGo]
  norm_num [attackConvP, attackConvQ, sqrt19600]

/-! Further helper lemmas. -/

lemma isPerfectSquare_elim {delta : Int} (h : isPerfectSquare delta = true) :
    0 ≤ delta ∧ Int.sqrt delta * Int.sqrt delta = delta := by
  unfold isPerfectSquare at h
  by_cases hneg : delta < 0
  · rw [if_pos hneg] at h; exact absurd h (by simp)
  · rw [if_neg hneg] at h
    exact ⟨by omega, beq_iff_eq.mp h⟩

lemma tryRecover_none_of_not_dvd {k d e N : Int} (h : ¬ (e * d - 1) % k = 0) :
    tryRecoverFromConvergent k d e N = none := by
  simp only [tryRecoverFromConvergent]
  by_cases hk : k = 0
  · rw [if_pos hk]
  · rw [if_neg hk, if_pos h]

lemma tryRecover_none_of_delta_neg {k d e N : Int} (hk : k ≠ 0)
    (hdvd : (e * d - 1) % k = 0)
    (hneg : -((N - (e * d - 1) / k) + 1) * -((N - (e * d - 1) / k) + 1) - 4 * 1 * N < 0) :
    tryRecoverFromConvergent k d e N = none := by
  simp only [tryRecoverFromConvergent]
  rw [if_neg hk, if_neg (not_not_intro hdvd), if_pos hneg]

lemma tryRecover_none_of_not_sq {k d e N : Int} (hk : k ≠ 0)
    (hdvd : (e * d - 1) % k = 0)
    (hnn : ¬ -((N - (e * d - 1) / k) + 1) * -((N - (e * d - 1) / k) + 1) - 4 * 1 * N < 0)
    (hns : ¬ Int.sqrt (-((N - (e * d - 1) / k) + 1) * -((N - (e * d - 1) / k) + 1) - 4 * 1 * N) *
      Int.sqrt (-((N - (e * d - 1) / k) + 1) * -((N - (e * d - 1) / k) + 1) - 4 * 1 * N) =
      -((N - (e * d - 1) / k) + 1) * -((N - (e * d - 1) / k) + 1) - 4 * 1 * N) :
    tryRecoverFromConvergent k d e N = none := by
  have hfalse : isPerfectSquare
      (-((N - (e * d - 1) / k) + 1) * -((N - (e * d - 1) / k) + 1) - 4 * 1 * N) = false := by
    unfold isPerfectSquare
    rw [if_neg hnn]
    exact beq_eq_false_iff_ne.mpr hns
  simp only [tryRecoverFromConvergent]
  rw [if_neg hk, if_neg (not_not_intro hdvd), if_neg hnn, if_pos (by rw [hfalse]; simp)]

lemma tryRecover_inv {k d e N q d' : Int}
    (h : tryRecoverFromConvergent k d e N = some (q, d')) :
    ∃ phiN b delta r rc : Int,
      d' = d ∧ k ≠ 0 ∧ (e * d - 1) % k = 0 ∧
      phiN = (e * d - 1) / k ∧ b = -((N - phiN) + 1) ∧
      delta = b * b - 4 * 1 * N ∧ 0 ≤ delta ∧
      r = Int.sqrt delta ∧ r * r = delta ∧
      (rc = -b + r ∨ rc = -b - r) ∧
      rc % 2 = 0 ∧ q = rc / 2 ∧ 0 < q ∧ N % q = 0 := by
  have hk : k ≠ 0 := by
    rintro rfl
    rw [tryRecover_k_zero] at h
    simp at h
  have hdvd : (e * d - 1) % k = 0 := by
    by_contra hc
    rw [tryRecover_none_of_not_dvd hc] at h
    simp at h
  have hnn : ¬ -((N - (e * d - 1) / k) + 1) * -((N - (e * d - 1) / k) + 1) - 4 * 1 * N < 0 := by
    intro hc
    rw [tryRecover_none_of_delta_neg hk hdvd hc] at h
    simp at h
  have hsq : Int.sqrt (-((N - (e * d - 1) / k) + 1) * -((N - (e * d - 1) / k) + 1) - 4 * 1 * N) *
      Int.sqrt (-((N - (e * d - 1) / k) + 1) * -((N - (e * d - 1) / k) + 1) - 4 * 1 * N) =
      -((N - (e * d - 1) / k) + 1) * -((N - (e * d - 1) / k) + 1) - 4 * 1 * N := by
    by_contra hc
    rw [tryRecover_none_of_not_sq hk hdvd hnn hc] at h
    simp at h
  rw [tryRecover_eq_of_sq hk hdvd rfl rfl rfl (by omega) rfl hsq] at h
  split_ifs at h with h1 h2
  · simp only [Option.some.injEq, Prod.mk.injEq] at h
    obtain ⟨hq, hd⟩ := h
    refine ⟨_, _, _, _, _, hd.symm, hk, hdvd, rfl, rfl, rfl, by omega, rfl, hsq,
      Or.inl rfl, h1.1, hq.symm, ?_, ?_⟩
    · rw [← hq]; exact h1.2.1
    · rw [← hq]; exact h1.2.2
  · simp only [Option.some.injEq, Prod.mk.injEq] at h
    obtain ⟨hq, hd⟩ := h
    refine ⟨_, _, _, _, _, hd.symm, hk, hdvd, rfl, rfl, rfl, by omega, rfl, hsq,
      Or.inr rfl, h2.1, hq.symm, ?_, ?_⟩
    · rw [← hq]; exact h2.2.1
    · rw [← hq]; exact h2.2.2

lemma attackGo_shape (e N : Int) (cf : List Int) :
    ∀ (n i : Nat) (p1 : Int), cf.length - i ≤ n →
      attackGo e N cf i p1 = [0] ∨ ∃ q d : Int, attackGo e N cf i p1 = [q, d] := by
  intro n
  induction n with
  | zero =>
    intro i p1 hn
    left
    rw [attackGo, if_neg (by omega)]
  | succ n ih =>
    intro i p1 hn
    by_cases hi : i < cf.length
    · rw [attackGo, if_pos hi]
      dsimp only
      split_ifs <;> first
        | exact Or.inr ⟨_, _, rfl⟩
        | exact ih _ _ (by omega)
    · left
      rw [attackGo, if_neg hi]

lemma oblicz_eq_cf_fuel : ∀ (fuel : Nat) (num den : Int), den.natAbs ≤ fuel →
    oblicz_wartosc_ulamka_lancuchowego num den = computeContinuedFraction num den := by
  intro fuel
  induction fuel with
  | zero =>
    intro num den hf
    have h0 : den = 0 := by omega
    subst h0
    rw [cf_zero, oblicz_wartosc_ulamka_lancuchowego]
    simp
  | succ n ih =>
    intro num den hf
    by_cases h : den = 0
    · subst h
      rw [cf_zero, oblicz_wartosc_ulamka_lancuchowego]
      simp
    · rw [cf_unfold num den h, oblicz_wartosc_ulamka_lancuchowego]
      rw [dif_neg h]
      dsimp only
      have harg : num - den * (num / den) = num % den := by rw [Int.emod_def]
      rw [harg, ih den (num % den) (by have := emod_natAbs_lt num den h; omega)]

lemma oblicz_eq_cf (num den : Int) :
    oblicz_wartosc_ulamka_lancuchowego num den = computeContinuedFraction num den :=
  oblicz_eq_cf_fuel den.natAbs num den le_rfl

lemma attackConvP_eq_convP (cf : List Int) : ∀ i, attackConvP cf i = convP cf i := by
  intro i
  induction i using Nat.strong_induction_on with
  | _ i ih =>
    match i with
    | 0 => rfl
    | 1 => rfl
    | n + 2 => rw [attackConvP, convP, ih (n + 1) (by omega), ih n (by omega)]

lemma attackConvQ_eq_convQ (cf : List Int) : ∀ i, attackConvQ cf i = convQ cf i := by
  intro i
  induction i using Nat.strong_induction_on with
  | _ i ih =>
    match i with
    | 0 => rfl
    | 1 => rfl
    | n + 2 => rw [attackConvQ, convQ, ih (n + 1) (by omega), ih n (by omega)]

lemma cf_eq_euclid_fuel : ∀ (fuel : Nat) (num den : Int), den.natAbs ≤ fuel →
    0 ≤ num → 0 ≤ den →
    computeContinuedFraction num den =
      (euclidQuotientSeq num.toNat den.toNat).map Int.ofNat := by
  intro fuel
  induction fuel with
  | zero =>
    intro num den hf hn hd
    have h0 : den = 0 := by omega
    subst h0
    rw [cf_zero, euclidQuotientSeq]
    simp
  | succ n ih =>
    intro num den hf hn hd
    by_cases h : den = 0
    · subst h
      rw [cf_zero, euclidQuotientSeq]
      simp
    · rw [cf_unfold num den h, euclidQuotientSeq, dif_neg (by omega : ¬ den.toNat = 0)]
      rw [List.map_cons]
      have hhead : Int.ofNat (num.toNat / den.toNat) = num / den := by
        rw [Int.ofNat_eq_natCast, Int.natCast_div, Int.toNat_of_nonneg hn,
          Int.toNat_of_nonneg hd]
      have hmod : ((num.toNat % den.toNat : Nat) : Int) = num % den := by
        rw [Int.natCast_mod, Int.toNat_of_nonneg hn, Int.toNat_of_nonneg hd]
      have harg : num.toNat % den.toNat = (num % den).toNat := by omega
      rw [hhead, harg,
        ih den (num % den) (by have := emod_natAbs_lt num den h; omega) hd
          (Int.emod_nonneg num h)]

lemma cf_eq_euclid (num den : Int) (hn : 0 ≤ num) (hd : 0 ≤ den) :
    computeContinuedFraction num den =
      (euclidQuotientSeq num.toNat den.toNat).map Int.ofNat :=
  cf_eq_euclid_fuel den.natAbs num den le_rfl hn hd

lemma buildP_getD (cf : List Int) (i : Nat) (h : i < cf.length) :
    (buildConvergents cf).1.getD i 0 = convP cf i := by
  have hl : i < ((List.range cf.length).map (convP cf)).length := by simp [h]
  simp only [buildConvergents]
  rw [getD_of_lt _ _ hl, List.getElem_map, List.getElem_range]

lemma buildQ_getD (cf : List Int) (i : Nat) (h : i < cf.length) :
    (buildConvergents cf).2.getD i 0 = convQ cf i := by
  have hl : i < ((List.range cf.length).map (convQ cf)).length := by simp [h]
  simp only [buildConvergents]
  rw [getD_of_lt _ _ hl, List.getElem_map, List.getElem_range]

lemma cf_one_four : computeContinuedFraction 1 4 = [0, 4] := by
  rw [computeContinuedFraction]
  norm_num
  rw [computeContinuedFraction]
  norm_num
  rw [computeContinuedFraction]
  norm_num

lemma cf_two_four : computeContinuedFraction 2 4 = [0, 2] := by
  rw [computeContinuedFraction]
  norm_num
  rw [computeContinuedFraction]
  norm_num
  rw [computeContinuedFraction]
  norm_num

/-! Claim theorems. -/

/-- C9: for every integer `e`, the continued-fraction expansion with `N = 0`
returns the empty term sequence, and the orchestrator `wienerAttack` treats
the empty sequence as attack failure (returns `none`) rather than crashing. -/
theorem C9_N_zero_empty_and_fail : ∀ e : Int,
    computeContinuedFraction e 0 = [] ∧ wienerAttack e 0 = none := by
  intro e
  refine ⟨cf_zero e, ?_⟩
  simp [wienerAttack, cf_zero]

/-- C7: for non-negative integers `e` and `N`, the continued-fraction
expansion terminates and returns exactly the quotient sequence of the
Euclidean algorithm on `(e, N)` as described by the spec (append
`num div den`, replace `(num, den)` by `(den, num − (num div den)·den)`;
the denominator strictly decreases and is bounded below by 0, which is the
termination measure of `euclidQuotientSeq`). -/
theorem C7_cf_is_euclid_quotients (e N : Int) (he : 0 ≤ e) (hN : 0 ≤ N) :
    computeContinuedFraction e N =
      (euclidQuotientSeq e.toNat N.toNat).map Int.ofNat :=
  cf_eq_euclid e N he hN

theorem C7_witness :
    0 ≤ (7 : Int) ∧ 0 ≤ (5 : Int) ∧
    computeContinuedFraction 7 5 =
      (euclidQuotientSeq (7 : Int).toNat (5 : Int).toNat).map Int.ofNat :=
  ⟨by norm_num, by norm_num, C7_cf_is_euclid_quotients 7 5 (by norm_num) (by norm_num)⟩

/-- C6: the convergent builder returns sequences `P` and `Q` of the same
length as the input (both empty when the input is empty), with
`P₀ = a₀`, `Q₀ = 1`, `P₁ = a₁·a₀ + 1`, `Q₁ = a₁`, and for `i ≥ 2`
`Pᵢ = aᵢ·Pᵢ₋₁ + Pᵢ₋₂` and `Qᵢ = aᵢ·Qᵢ₋₁ + Qᵢ₋₂`. -/
theorem C6_convergent_recurrence : ∀ cf : List Int,
    ((buildConvergents cf).1.length = cf.length ∧
     (buildConvergents cf).2.length = cf.length) ∧
    (0 < cf.length →
      (buildConvergents cf).1.getD 0 0 = cf.getD 0 0 ∧
      (buildConvergents cf).2.getD 0 0 = 1) ∧
    (1 < cf.length →
      (buildConvergents cf).1.getD 1 0 = cf.getD 1 0 * cf.getD 0 0 + 1 ∧
      (buildConvergents cf).2.getD 1 0 = cf.getD 1 0) ∧
    (∀ i, 2 ≤ i → i < cf.length →
      (buildConvergents cf).1.getD i 0 =
        cf.getD i 0 * (buildConvergents cf).1.getD (i - 1) 0 +
          (buildConvergents cf).1.getD (i - 2) 0 ∧
      (buildConvergents cf).2.getD i 0 =
        cf.getD i 0 * (buildConvergents cf).2.getD (i - 1) 0 +
          (buildConvergents cf).2.getD (i - 2) 0) := by
  intro cf
  refine ⟨⟨by simp [buildConvergents], by simp [buildConvergents]⟩, ?_, ?_, ?_⟩
  · intro h0
    rw [buildP_getD cf 0 h0, buildQ_getD cf 0 h0]
    exact ⟨rfl, rfl⟩
  · intro h1
    rw [buildP_getD cf 1 h1, buildQ_getD cf 1 h1]
    exact ⟨rfl, rfl⟩
  · intro i h2 hlen
    obtain ⟨n, rfl⟩ : ∃ n, i = n + 2 := ⟨i - 2, by omega⟩
    rw [buildP_getD cf (n + 2) hlen, buildQ_getD cf (n + 2) hlen,
      show n + 2 - 1 = n + 1 from rfl, show n + 2 - 2 = n from rfl,
      buildP_getD cf (n + 1) (by omega), buildQ_getD cf (n + 1) (by omega),
      buildP_getD cf n (by omega), buildQ_getD cf n (by omega)]
    exact ⟨by rw [convP], by rw [convQ]⟩

theorem C6_witness :
    (buildConvergents [2, 3, 4]).1.length = ([2, 3, 4] : List Int).length ∧
    (buildConvergents [2, 3, 4]).1.getD 0 0 = ([2, 3, 4] : List Int).getD 0 0 ∧
    (buildConvergents [2, 3, 4]).2.getD 0 0 = 1 ∧
    (buildConvergents [2, 3, 4]).1.getD 1 0 =
      ([2, 3, 4] : List Int).getD 1 0 * ([2, 3, 4] : List Int).getD 0 0 + 1 ∧
    (buildConvergents [2, 3, 4]).2.getD 2 0 =
      ([2, 3, 4] : List Int).getD 2 0 * (buildConvergents [2, 3, 4]).2.getD 1 0 +
        (buildConvergents [2, 3, 4]).2.getD 0 0 := by
  have h := C6_convergent_recurrence [2, 3, 4]
  exact ⟨h.1.1, (h.2.1 (by norm_num)).1, (h.2.1 (by norm_num)).2,
    (h.2.2.1 (by norm_num)).1, (h.2.2.2 2 (by norm_num) (by norm_num)).2⟩

/-- C8 counterexample: the claim fails at `N = 1`.  With `e = N = 1` the
continued-fraction expansion is indeed the single-term sequence `[1]`, but
the attack does *not* report failure: it succeeds with `(q, d) = (1, 1)`
(the quadratic has discriminant 0 and root 1, which divides `N = 1`). -/
theorem C8_counterexample :
    computeContinuedFraction 1 1 = [1] ∧ wienerAttack 1 1 = some (1, 1) :=
  ⟨cf_one_one, wienerAttack_one_one⟩

/-- C8 (amended): for every `N ≥ 2`, with `e = N` the continued-fraction
expansion is the single-term sequence `[1]` and the attack reports failure
(returns `none`) without performing any division by zero. -/
theorem C8_amended_e_eq_N (N : Int) (hN : 2 ≤ N) :
    computeContinuedFraction N N = [1] ∧ wienerAttack N N = none := by
  have hN0 : N ≠ 0 := by omega
  have hcf : computeContinuedFraction N N = [1] := by
    rw [cf_unfold N N hN0, Int.ediv_self hN0, Int.emod_self, cf_zero]
  refine ⟨hcf, ?_⟩
  have htr : tryRecoverFromConvergent 1 1 N N = none := by
    apply tryRecover_none_of_delta_neg (by norm_num) (by norm_num)
    have h1 : (N * 1 - 1 : Int) / 1 = N - 1 := by rw [Int.ediv_one]; ring
    rw [h1]
    have h2 : (N - (N - 1) : Int) = 1 := by ring
    rw [h2]
    nlinarith
  simp only [wienerAttack]
  rw [hcf]
  norm_num [buildConvergents, convP, convQ, List.range_succ, -Prod.mk_one_one]
  rw [scanConvergents, htr, scanConvergents]

theorem C8_witness :
    (2 : Int) ≤ 2 ∧ computeContinuedFraction 2 2 = [1] ∧ wienerAttack 2 2 = none := by
  have h := C8_amended_e_eq_N 2 (by norm_num)
  exact ⟨by norm_num, h.1, h.2⟩

/-- C10: the function `attack` in `wiener.cpp` returns either the sentinel `[0]`
(length 1, sole element 0, so index 1 is out of bounds) or a success pair
`[q, d]` (both indices in bounds); concretely at the failing input
`e = 2, N = 5` the result is `[0]` and reading index 1 yields nothing. -/
theorem C10_failure_sentinel :
    (∀ e N : Int,
      (attack e N = [0] ∧ (attack e N)[1]? = none) ∨
      ∃ q d : Int, attack e N = [q, d] ∧
        (attack e N)[0]? = some q ∧ (attack e N)[1]? = some d) ∧
    attack 2 5 = [0] ∧ (attack 2 5)[1]? = none := by
  constructor
  · intro e N
    rcases attackGo_shape e N (oblicz_wartosc_ulamka_lancuchowego e N)
        (oblicz_wartosc_ulamka_lancuchowego e N).length 0 0 (by omega) with h | ⟨q, d, h⟩
    · left
      refine ⟨h, ?_⟩
      rw [show attack e N = attackGo e N (oblicz_wartosc_ulamka_lancuchowego e N) 0 0 from rfl,
        h]
      rfl
    · right
      refine ⟨q, d, h, ?_, ?_⟩ <;>
        rw [show attack e N = attackGo e N (oblicz_wartosc_ulamka_lancuchowego e N) 0 0 from rfl,
          h] <;> rfl
  · exact ⟨attack_two_five, by rw [attack_two_five]; rfl⟩

/-- C2 counterexample: the two attack implementations do not compute the
same outcome.  At `e = N = 1`, `wienerAttack` succeeds with `(1, 1)` while
`attack` returns its failure sentinel `[0]` (its `delta = 0` branch divides
a stale variable instead of `-b`).  At the classic input
`e = 17993, N = 90581` both succeed with the same `d = 5` but return
different factors: `attack` returns `N / root = 239` where `wienerAttack`
returns the root `379` itself. -/
theorem C2_counterexample :
    wienerAttack 1 1 = some (1, 1) ∧ attack 1 1 = [0] ∧
    wienerAttack 17993 90581 = some (379, 5) ∧ attack 17993 90581 = [239, 5] :=
  ⟨wienerAttack_one_one, attack_one_one, wienerAttack17993, attack17993⟩

/-- C2 (amended): the two implementations agree on the continued-fraction
expansion and on the convergent sequences for every input — `attack`'s
inline expansion and convergent recurrences compute exactly
`computeContinuedFraction`, `convP` and `convQ` — but they are not
outcome-equivalent (see the counterexample: the success sets differ, and on
common success `attack` returns the complementary factor `N / q`). -/
theorem C2_amended_shared_pipeline :
    (∀ e N : Int,
      oblicz_wartosc_ulamka_lancuchowego e N = computeContinuedFraction e N) ∧
    (∀ (cf : List Int) (i : Nat),
      attackConvP cf i = convP cf i ∧ attackConvQ cf i = convQ cf i) :=
  ⟨oblicz_eq_cf, fun cf i => ⟨attackConvP_eq_convP cf i, attackConvQ_eq_convQ cf i⟩⟩

/-- C3: for every candidate `(k, d)` and inputs `(e, N)`, the per-convergent
candidate recovery returns no candidate whenever the discriminant
`Δ = b² − 4ac` is not a perfect square, perfect-squareness being
established by computing the integer square root `r` of `Δ` and checking
`r·r = Δ` exactly. -/
theorem C3_reject_non_square_delta (k d e N delta : Int)
    (hdelta : delta =
      -((N - (e * d - 1) / k) + 1) * -((N - (e * d - 1) / k) + 1) - 4 * 1 * N)
    (hns : Int.sqrt delta * Int.sqrt delta ≠ delta) :
    tryRecoverFromConvergent k d e N = none := by
  subst hdelta
  by_cases hk : k = 0
  · subst hk
    exact tryRecover_k_zero d e N
  · by_cases hdvd : (e * d - 1) % k = 0
    · by_cases hneg :
        -((N - (e * d - 1) / k) + 1) * -((N - (e * d - 1) / k) + 1) - 4 * 1 * N < 0
      · exact tryRecover_none_of_delta_neg hk hdvd hneg
      · exact tryRecover_none_of_not_sq hk hdvd hneg hns
    · exact tryRecover_none_of_not_dvd hdvd

theorem C3_witness :
    ((-3 : Int) =
      -(((1 : Int) - (2 * 1 - 1) / 1) + 1) * -(((1 : Int) - (2 * 1 - 1) / 1) + 1) - 4 * 1 * 1) ∧
    Int.sqrt (-3) * Int.sqrt (-3) ≠ (-3 : Int) ∧
    tryRecoverFromConvergent 1 1 2 1 = none := by
  refine ⟨by norm_num, by decide, ?_⟩
  exact C3_reject_non_square_delta 1 1 2 1 (-3) (by norm_num) (by decide)

/-- C4: in candidate recovery, for a candidate with non-negative
perfect-square discriminant, the two root numerators `−b + r` and `−b − r`
are tried in that order; each is tested for divisibility by `2a`, then
positivity of the quotient, then divisibility of `N` by the quotient; the
first root numerator passing all three tests is accepted as the factor `q`
(paired with `d`), and when the first fails any test the second is still
tried. -/
theorem C4_two_roots_in_order (k d e N phiN b delta r : Int)
    (hk : k ≠ 0) (hdvd : (e * d - 1) % k = 0)
    (hphi : phiN = (e * d - 1) / k)
    (hb : b = -((N - phiN) + 1))
    (hdelta : delta = b * b - 4 * 1 * N)
    (hnn : 0 ≤ delta)
    (hr : r = Int.sqrt delta)
    (hsq : r * r = delta) :
    tryRecoverFromConvergent k d e N =
      if (-b + r) % (2 * 1) = 0 ∧ 0 < (-b + r) / (2 * 1) ∧ N % ((-b + r) / (2 * 1)) = 0
      then some ((-b + r) / (2 * 1), d)
      else if (-b - r) % (2 * 1) = 0 ∧ 0 < (-b - r) / (2 * 1) ∧ N % ((-b - r) / (2 * 1)) = 0
      then some ((-b - r) / (2 * 1), d)
      else none := by
  rw [tryRecover_eq_of_sq hk hdvd hphi hb hdelta hnn hr hsq]
  norm_num

theorem C4_witness :
    ((1 : Int) ≠ 0) ∧ (((1 : Int) * 1 - 1) % 1 = 0) ∧
    ((0 : Int) = (1 * 1 - 1) / 1) ∧ ((-2 : Int) = -(((1 : Int) - 0) + 1)) ∧
    ((0 : Int) = (-2 : Int) * (-2) - 4 * 1 * 1) ∧ (0 : Int) ≤ 0 ∧
    ((0 : Int) = Int.sqrt 0) ∧ ((0 : Int) * 0 = 0) ∧
    tryRecoverFromConvergent 1 1 1 1 =
      (if (-(-2 : Int) + 0) % (2 * 1) = 0 ∧ 0 < (-(-2 : Int) + 0) / (2 * 1) ∧
          (1 : Int) % ((-(-2 : Int) + 0) / (2 * 1)) = 0
       then some ((-(-2 : Int) + 0) / (2 * 1), 1)
       else if (-(-2 : Int) - 0) % (2 * 1) = 0 ∧ 0 < (-(-2 : Int) - 0) / (2 * 1) ∧
          (1 : Int) % ((-(-2 : Int) - 0) / (2 * 1)) = 0
       then some ((-(-2 : Int) - 0) / (2 * 1), 1)
       else none) := by
  refine ⟨by norm_num, by norm_num, by norm_num, by norm_num, by norm_num,
    le_rfl, by decide, by norm_num, ?_⟩
  exact C4_two_roots_in_order 1 1 1 1 0 (-2) 0 0 (by norm_num) (by norm_num)
    (by norm_num) (by norm_num) (by norm_num) le_rfl (by decide) (by norm_num)

/-- C5: the orchestrator tests convergents in increasing index order and
returns the `(q, d)` produced by the first index at which per-convergent
recovery succeeds, every earlier index having failed — first-match-wins
semantics over the convergent list. -/
theorem C5_first_success_wins (e N q d : Int) :
    wienerAttack e N = some (q, d) ↔
    ∃ i, i < (computeContinuedFraction e N).length ∧
      tryRecoverFromConvergent (convP (computeContinuedFraction e N) i)
        (convQ (computeContinuedFraction e N) i) e N = some (q, d) ∧
      ∀ j, j < i →
        tryRecoverFromConvergent (convP (computeContinuedFraction e N) j)
          (convQ (computeContinuedFraction e N) j) e N = none :=
  wienerAttack_eq_some_iff e N (q, d)

/-- C1: for every pair of positive integers `e` and `N`, whenever the attack
returns a success pair `(q, d)`, then with `p = N / q` both `p * q = N` and
`(e * d) % ((p - 1) * (q - 1)) = 1` hold exactly; in particular the
orchestrator's final verification check never fails on a candidate the
recoverer accepted. -/
theorem C1_roundtrip_verification (e N q d : Int) (he : 0 < e) (hN : 0 < N)
    (hatk : wienerAttack e N = some (q, d)) :
    (N / q) * q = N ∧ (e * d) % ((N / q - 1) * (q - 1)) = 1 := by
  obtain ⟨i, hi, hsome, -⟩ := (wienerAttack_eq_some_iff e N (q, d)).mp hatk
  obtain ⟨phiN, b, delta, r, rc, hd, hk, hdvd, hphi, hb, hdelta, hnn, hr, hsq, hrc,
    hrc2, hq, hqpos, hqdvd⟩ := tryRecover_inv hsome
  rw [← hd] at hdvd hphi
  have hterm0 : 0 ≤ (computeContinuedFraction e N).getD 0 0 :=
    cf_getD_nonneg e N (le_of_lt he) (le_of_lt hN) 0
  have htail := cf_getD_tail_one_le e N he hN
  have hK1 : 1 ≤ convP (computeContinuedFraction e N) i := by
    have h0 := convP_nonneg _ hterm0 htail i hi
    omega
  have hD1 : 1 ≤ d := by
    rw [hd]
    exact convQ_one_le _ htail i hi
  have hed1 : 1 ≤ e * d := by nlinarith
  have hphiN0 : 0 ≤ phiN := by
    rw [hphi]
    exact Int.ediv_nonneg (by omega) (by omega)
  have heq : e * d - 1 = convP (computeContinuedFraction e N) i * phiN := by
    have hdv : convP (computeContinuedFraction e N) i ∣ (e * d - 1) :=
      Int.dvd_of_emod_eq_zero hdvd
    rw [hphi]
    exact (Int.mul_ediv_cancel' hdv).symm
  have hrc_eq : rc = 2 * q := by
    have h2 : (2 : Int) ∣ rc := Int.dvd_of_emod_eq_zero hrc2
    rw [hq, mul_comm]
    exact (Int.ediv_mul_cancel h2).symm
  have hroot : q * q - (-b) * q + N = 0 := by
    have hx2 : (2 * q + b) * (2 * q + b) = delta := by
      rcases hrc with h1 | h1
      · have hxr : 2 * q + b = r := by omega
        rw [hxr]; exact hsq
      · have hxr : 2 * q + b = -r := by omega
        rw [hxr, neg_mul_neg]; exact hsq
    rw [hdelta] at hx2
    have h4 : 4 * (q * q - (-b) * q + N) = 0 := by linear_combination hx2
    linarith
  have hqd : q ∣ N := Int.dvd_of_emod_eq_zero hqdvd
  have hpq : (N / q) * q = N := Int.ediv_mul_cancel hqd
  refine ⟨hpq, ?_⟩
  set p := N / q with hp
  have hps : p + q = -b := by
    have h2 : q * q - (-b) * q + p * q = 0 := by rw [hpq]; exact hroot
    have h1 : q * (q + p - -b) = 0 := by linear_combination h2
    rcases mul_eq_zero.mp h1 with h | h
    · omega
    · omega
  have hphi2 : phiN = (p - 1) * (q - 1) := by
    have h1 : phiN = N - (p + q) + 1 := by omega
    rw [h1, ← hpq]
    ring
  rcases lt_trichotomy phiN 1 with hlt | heq1 | hgt
  · have h0 : phiN = 0 := by omega
    have hed : e * d = 1 := by
      rw [h0, mul_zero] at heq
      omega
    rw [hed, ← hphi2, h0]
    norm_num
  · exfalso
    have hppos : 1 ≤ p := by
      by_contra hc
      push_neg at hc
      nlinarith [hpq]
    have hone : (p - 1) * (q - 1) = 1 := by rw [← hphi2, heq1]
    have hp2 : p = 2 ∧ q = 2 := by
      rcases Int.mul_eq_one_iff_eq_one_or_neg_one.mp hone with ⟨h1, h2⟩ | ⟨h1, h2⟩ <;>
        exact ⟨by omega, by omega⟩
    have hN4 : N = 4 := by
      have h4 := hpq
      rw [hp2.1, hp2.2] at h4
      omega
    subst hN4
    have hkeq : convP (computeContinuedFraction e 4) i = e * d - 1 := by
      rw [heq1, mul_one] at heq
      exact heq.symm
    have hbound := convP_le_convQ _ hterm0 htail i hi
    have hhead : (computeContinuedFraction e 4).getD 0 0 = e / 4 :=
      cf_getD_head e 4 (by norm_num)
    rcases lt_or_le e 3 with he3 | he3
    · interval_cases e
      · rw [cf_one_four] at hkeq hd hi hK1
        simp only [List.length_cons, List.length_nil] at hi
        interval_cases i
        · norm_num [convP] at hK1
        · norm_num [convP] at hkeq
          norm_num [convQ] at hd
          omega
      · rw [cf_two_four] at hkeq hd hi hK1
        simp only [List.length_cons, List.length_nil] at hi
        interval_cases i
        · norm_num [convP] at hK1
        · norm_num [convP] at hkeq
          norm_num [convQ] at hd
          omega
    · have h1 : e * d - 1 ≤ (e / 4 + 1) * d := by
        rw [hkeq, hhead, ← hd] at hbound
        exact hbound
      have h2 : 2 ≤ e - e / 4 - 1 := by omega
      have h3 : 2 * d ≤ (e - e / 4 - 1) * d :=
        mul_le_mul_of_nonneg_right h2 (by omega)
      nlinarith [h1, h3, hD1]
  · have heq2 : e * d = 1 + phiN * convP (computeContinuedFraction e N) i := by
      linear_combination heq
    rw [← hphi2, heq2, Int.add_mul_emod_self_left]
    exact Int.emod_eq_of_lt (by norm_num) (by omega)

theorem C1_witness :
    0 < (17993 : Int) ∧ 0 < (90581 : Int) ∧
    wienerAttack 17993 90581 = some (379, 5) ∧
    ((90581 : Int) / 379) * 379 = 90581 ∧
    ((17993 : Int) * 5) % (((90581 : Int) / 379 - 1) * (379 - 1)) = 1 := by
  have h := C1_roundtrip_verification 17993 90581 379 5 (by norm_num) (by norm_num)
    wienerAttack17993
  exact ⟨by norm_num, by norm_num, wienerAttack17993, h.1, h.2⟩
